import Mathlib

/-!
# Hash primitives: djb2, FNV-1a (32 / 64 bit) and the multiplicative fold

A shallow embedding of `algorithm/hash/djb2.c`, `algorithm/hash/fnv.c` and
`linux-kernel-drivers/hash.c`.

* A byte of memory is a `Fin 256`.
* Memory reachable from a pointer is the list of readable bytes that start at
  the pointer; dereferencing beyond the list is an out-of-bounds read.
* Fixed-width unsigned integers are natural numbers reduced `% 2 ^ w` at the
  operations that can overflow (shift, add, multiply).
-/

namespace Hash

/-- One byte of memory (`uint8_t`, or the object representation of a `char`). -/
abbrev Byte := Fin 256

/-- How a call ends. -/
inductive Outcome (α : Type) where
  /-- The function executed `return v`. -/
  | returned (v : α)
  /-- The function wrote `stderr` and called `exit (status)`. -/
  | exited (stderr : String) (status : Nat)
  /-- A read outside the readable bytes (undefined behaviour in C). -/
  | outOfBounds
  /-- The loop budget of the model ran out before the loop ended. -/
  | outOfFuel
  deriving DecidableEq

/-! ## FNV-1a (`fnv.c`) -/

/-- `FNV_OFFSET_BASIS_32`. -/
def FNV_OFFSET_BASIS_32 : Nat := 0x811c9dc5
/-- `FNV_PRIME_32`. -/
def FNV_PRIME_32 : Nat := 0x01000193
/-- `FNV_OFFSET_BASIS_64`. -/
def FNV_OFFSET_BASIS_64 : Nat := 0xcbf29ce484222325
/-- `FNV_PRIME_64`. -/
def FNV_PRIME_64 : Nat := 0x100000001b3

/-- The local variables of the `for` loop of `fnv1a_32` / `fnv1a_64`, with two
ghost fields that record what the loop did: `reads` lists, in order, every
index `i` at which `ptr[i]` was evaluated, and `iters` counts the executions of
the loop body. -/
structure FnvState where
  i : Nat
  hash : Nat
  reads : List Nat
  iters : Nat
  deriving DecidableEq

/-- The loop `for (size_t i = 0; i < length; i++) { hash ^= ptr[i]; hash *= prime; }`
on a `w`-bit `hash`. The counter `i` stays below `length`, itself a `size_t`, so
`i++` cannot wrap and `i` is kept as a plain natural number. The XOR of a `w`-bit
value with a byte cannot overflow; the product is reduced modulo `2 ^ w`. -/
def fnv1a_loop (w prime : Nat) (ptr : List Byte) (length : Nat) :
    Nat → FnvState → Outcome FnvState
  | 0, _ => Outcome.outOfFuel
  | fuel + 1, s =>
    if s.i < length then
      match ptr[s.i]? with
      | none => Outcome.outOfBounds
      | some b =>
        let hash := s.hash ^^^ b.val
        let hash := (hash * prime) % 2 ^ w
        fnv1a_loop w prime ptr length fuel
          { i := s.i + 1, hash := hash, reads := s.reads ++ [s.i], iters := s.iters + 1 }
    else
      Outcome.returned s

/-- The whole body of `fnv1a_32` / `fnv1a_64`, up to the `return`: the state in
which the loop is left. `length + 1` loop tests are enough for every input. -/
def fnv1a_run (w basis prime : Nat) (data : List Byte) (length : Nat) : Outcome FnvState :=
  fnv1a_loop w prime data length (length + 1)
    { i := 0, hash := basis, reads := [], iters := 0 }

/-- What the caller sees of a run: the returned `hash`. -/
def Outcome.value : Outcome FnvState → Outcome Nat
  | Outcome.returned s => Outcome.returned s.hash
  | Outcome.exited e c => Outcome.exited e c
  | Outcome.outOfBounds => Outcome.outOfBounds
  | Outcome.outOfFuel => Outcome.outOfFuel

/-- `uint32_t fnv1a_32(const void *data, size_t length)`. -/
def fnv1a_32 (data : List Byte) (length : Nat) : Outcome Nat :=
  (fnv1a_run 32 FNV_OFFSET_BASIS_32 FNV_PRIME_32 data length).value

/-- `uint64_t fnv1a_64(const void *data, size_t length)`. -/
def fnv1a_64 (data : List Byte) (length : Nat) : Outcome Nat :=
  (fnv1a_run 64 FNV_OFFSET_BASIS_64 FNV_PRIME_64 data length).value

/-- One execution of the loop body of `fnv1a_32` / `fnv1a_64` on the
accumulator alone: `hash ^= b; hash *= prime;` in `w` bits. -/
def fnv1a_step (w prime : Nat) (h : Nat) (b : Byte) : Nat :=
  ((h ^^^ b.val) * prime) % 2 ^ w

/-- The arbitrary-precision reference of the wraparound test: from the offset
basis, `h = (h XOR b) * prime` for each byte, over the unbounded natural
numbers and with no intermediate reduction. -/
def fnv1a_reference (basis prime : Nat) (s : List Byte) : Nat :=
  s.foldl (fun h b => (h ^^^ b.val) * prime) basis

/-- The original FNV-1 ordering, which `fnv.c` does not implement: from the same
offset basis, multiply by the prime (modulo `2 ^ w`) first, then XOR the byte. -/
def fnv1_reference (w basis prime : Nat) (s : List Byte) : Nat :=
  s.foldl (fun h b => ((h * prime) % 2 ^ w) ^^^ b.val) basis

/-! ## djb2 (`djb2.c`) -/

/-- `EXIT_FAILURE` of `<stdlib.h>`. -/
def EXIT_FAILURE : Nat := 1

/-- The value of `*str` as an `int`: the integer promotion of a `char` whose
object representation is the byte `b`. Where plain `char` is signed (x86-64
Linux) the bytes `128 .. 255` are the negative values `-128 .. -1`. -/
def charToInt (charSigned : Bool) (b : Byte) : Int :=
  if charSigned && decide (128 ≤ b.val) then (b.val : Int) - 256 else (b.val : Int)

/-- Conversion of an `int` to a `W`-bit `unsigned long`: reduction modulo `2 ^ W`. -/
def intToULong (W : Nat) (c : Int) : Nat :=
  (c % (2 : Int) ^ W).toNat

/-- The loop `while ((c = *str++)) hash = ((hash << 5) + hash) + c;` with a
`W`-bit `unsigned long hash`. The list is the memory readable from `str` on:
`*str++` reads its head and leaves `str` at its tail. -/
def djb2_loop (W : Nat) (charSigned : Bool) : List Byte → Nat → Outcome Nat
  | [], _ => Outcome.outOfBounds
  | b :: str, hash =>
    let c := charToInt charSigned b
    if c = 0 then
      Outcome.returned hash
    else
      djb2_loop W charSigned str
        ((((hash <<< 5) % 2 ^ W + hash) % 2 ^ W + intToULong W c) % 2 ^ W)

/-- `unsigned long djb2(const char *str)`; `none` is the null pointer, `W` the
width of `unsigned long`, `charSigned` whether plain `char` is signed. -/
def djb2 (W : Nat) (charSigned : Bool) (str : Option (List Byte)) : Outcome Nat :=
  match str with
  | none => Outcome.exited "Error: Null string passed to djb2.\n" EXIT_FAILURE
  | some mem => djb2_loop W charSigned mem (5381 % 2 ^ W)

/-- One execution of the loop body of `djb2` on the accumulator alone:
`hash = ((hash << 5) + hash) + c` for the byte read into `c`. -/
def djb2_step (W : Nat) (charSigned : Bool) (hash : Nat) (b : Byte) : Nat :=
  (((hash <<< 5) % 2 ^ W + hash) % 2 ^ W + intToULong W (charToInt charSigned b)) % 2 ^ W

/-- The bytes of the literal `"hello"` of `main`, terminator included. -/
def test_str : List Byte := [104, 101, 108, 108, 111, 0]

/-- The shift-add form of the multiplication by `FNV_PRIME_32` that the
"Optimization Notes" of `fnv.c` write down, in 32-bit arithmetic:
`(hash << 24) + (hash << 8) + (hash * low)`. The notes give `low = 3`. -/
def fnv_prime_32_shift_add (low hash : Nat) : Nat :=
  (((hash <<< 24) % 2 ^ 32 + (hash <<< 8) % 2 ^ 32) % 2 ^ 32 + (hash * low) % 2 ^ 32) % 2 ^ 32

/-! ## Multiplicative fold and bucket array (`hash.c`) -/

/-- `static __always_inline u32 hash_64_generic(u64 val, unsigned int bits)`.
`BITS_PER_LONG` selects the branch. `GOLDEN_RATIO_64`, `hash_32` and
`__hash_32` (here `hash_32_raw`) are not defined in `hash.c` and are taken as
parameters. The shift count `64 - bits` is computed in `unsigned int`; a count
of 64 or more is undefined behaviour and gives `none`. The product is a `u64`
and the returned value is converted to `u32`. -/
def hash_64_generic (BITS_PER_LONG GOLDEN_RATIO_64 : Nat)
    (hash_32 : Nat → Nat → Nat) (hash_32_raw : Nat → Nat)
    (val bits : Nat) : Option Nat :=
  if BITS_PER_LONG = 64 then
    let count := (((64 : Int) - (bits : Int)) % (2 : Int) ^ 32).toNat
    if count < 64 then
      some ((((val * GOLDEN_RATIO_64) % 2 ^ 64) >>> count) % 2 ^ 32)
    else
      none
  else
    some (hash_32 ((val % 2 ^ 32) ^^^ hash_32_raw (val >>> 32)) bits)

/-- `struct hlist_head`: the pointer to the first node, `none` for a null pointer. -/
structure hlist_head where
  first : Option Nat
  deriving DecidableEq

/-- `DEFINE_HASHTABLE(name, bits)`: the array `name[1 << (bits)]` with every
bucket set to `HLIST_HEAD_INIT` (not defined in `hash.c`, a parameter here).
`1 << (bits)` is an `int` expression: from `bits = 31` on it is not
representable and no array is declared. -/
def DEFINE_HASHTABLE (HLIST_HEAD_INIT : hlist_head) (bits : Nat) : Option (List hlist_head) :=
  if bits < 31 then
    some (List.replicate (1 <<< bits) HLIST_HEAD_INIT)
  else
    none

/-! ## Loop invariants -/

/-- The state in which the FNV loop is left when it is entered in state `s`
with the buffer valid for `length` bytes. -/
theorem fnv1a_loop_returns (w prime : Nat) (ptr : List Byte) (length : Nat)
    (hvalid : length ≤ ptr.length) :
    ∀ (fuel : Nat) (s : FnvState), s.i ≤ length → length - s.i < fuel →
      fnv1a_loop w prime ptr length fuel s = Outcome.returned
        { i := length
          hash := List.foldl (fnv1a_step w prime) s.hash ((ptr.take length).drop s.i)
          reads := s.reads ++ List.range' s.i (length - s.i)
          iters := s.iters + (length - s.i) } := by
  intro fuel
  induction fuel with
  | zero => intro s _ h; omega
  | succ fuel ih =>
    intro s hle hfuel
    unfold fnv1a_loop
    by_cases hlt : s.i < length
    · have hget : ptr[s.i]? = some (ptr.get ⟨s.i, by omega⟩) := by
        simp [List.getElem?_eq_getElem (show s.i < ptr.length by omega)]
      have hdrop : (ptr.take length).drop s.i
          = ptr.get ⟨s.i, by omega⟩ :: (ptr.take length).drop (s.i + 1) := by
        rw [List.drop_eq_getElem_cons (by simp; omega)]
        simp
      have hlen : length - s.i = (length - (s.i + 1)) + 1 := by omega
      simp only [hlt, if_true, hget]
      rw [ih _ (by simpa using hlt) (by simp only; omega), hdrop, hlen]
      simp [fnv1a_step, List.range'_succ, Nat.add_assoc, Nat.add_comm 1]
    · obtain ⟨i, h, r, n⟩ := s
      have heq : i = length := by simp only at hlt hle; omega
      subst heq
      have hnil : (ptr.take i).drop i = [] :=
        List.drop_eq_nil_of_le (by simp)
      simp [hnil]

/-- The state in which `fnv1a_32` / `fnv1a_64` reach their `return` on a buffer
valid for `length` bytes. -/
theorem fnv1a_run_returns (w basis prime : Nat) (data : List Byte) (length : Nat)
    (hvalid : length ≤ data.length) :
    fnv1a_run w basis prime data length = Outcome.returned
      { i := length
        hash := List.foldl (fnv1a_step w prime) basis (data.take length)
        reads := List.range length
        iters := length } := by
  unfold fnv1a_run
  rw [fnv1a_loop_returns w prime data length hvalid (length + 1) _ (Nat.zero_le _)
    (by simp only; omega)]
  simp [List.range_eq_range']

/-- XOR commutes with reduction modulo a power of two. -/
theorem xor_mod_two_pow (a b w : Nat) :
    (a ^^^ b) % 2 ^ w = (a % 2 ^ w) ^^^ (b % 2 ^ w) := by
  apply Nat.eq_of_testBit_eq
  intro i
  simp only [Nat.testBit_mod_two_pow, Nat.testBit_xor]
  by_cases h : i < w <;> simp [h]

/-- A byte is left alone by reduction modulo `2 ^ w` once `w` is at least 8. -/
theorem byte_mod_two_pow (b : Byte) (w : Nat) (hw : 8 ≤ w) : b.val % 2 ^ w = b.val := by
  apply Nat.mod_eq_of_lt
  calc b.val < 2 ^ 8 := b.isLt
    _ ≤ 2 ^ w := Nat.pow_le_pow_right (by decide) hw

/-- The wrapped accumulator is the reduction of the unbounded one, round by round. -/
theorem fnv1a_fold_mod (w prime : Nat) (hw : 8 ≤ w) (s : List Byte) :
    ∀ h : Nat, List.foldl (fnv1a_step w prime) (h % 2 ^ w) s
      = (List.foldl (fun h (b : Byte) => (h ^^^ b.val) * prime) h s) % 2 ^ w := by
  induction s with
  | nil => intro h; rfl
  | cons b s ih =>
    intro h
    have hstep : fnv1a_step w prime (h % 2 ^ w) b = ((h ^^^ b.val) * prime) % 2 ^ w := by
      unfold fnv1a_step
      rw [← byte_mod_two_pow b w hw, ← xor_mod_two_pow, byte_mod_two_pow b w hw,
        Nat.mod_mul_mod]
    simp only [List.foldl_cons, hstep]
    exact ih _

/-- The loop test `(c = *str++)` is false exactly at a zero byte, whatever the
signedness of `char`. -/
theorem charToInt_eq_zero_iff (charSigned : Bool) (b : Byte) :
    charToInt charSigned b = 0 ↔ b = 0 := by
  have hb := b.isLt
  unfold charToInt
  constructor
  · intro h
    apply Fin.ext
    simp only [Fin.val_zero]
    split at h <;> omega
  · intro h
    subst h
    cases charSigned <;> simp

/-- An `int` that holds a non-negative value converts to `unsigned long` by
reduction of that value. -/
theorem intToULong_natCast (W n : Nat) : intToULong W (n : Int) = n % 2 ^ W := by
  unfold intToULong
  have h : ((n : Int) % (2 : Int) ^ W) = ((n % 2 ^ W : Nat) : Int) := by
    push_cast
    rfl
  rw [h, Int.toNat_natCast]

/-- On a string whose bytes before the terminator are all non-zero the loop of
`djb2` returns, and returns the fold of its body over those bytes; what follows
the terminator is never read. -/
theorem djb2_loop_terminated (W : Nat) (charSigned : Bool) (t : List Byte) :
    ∀ (s : List Byte) (h : Nat), (∀ b ∈ s, b ≠ 0) →
      djb2_loop W charSigned (s ++ 0 :: t) h
        = Outcome.returned (List.foldl (djb2_step W charSigned) h s) := by
  intro s
  induction s with
  | nil =>
    intro h _
    simp [djb2_loop, (charToInt_eq_zero_iff charSigned 0).mpr rfl]
  | cons b s ih =>
    intro h hs
    have hb : ¬ charToInt charSigned b = 0 := by
      rw [charToInt_eq_zero_iff]
      exact hs b (by simp)
    have hrest : ∀ x ∈ s, x ≠ 0 := fun x hx => hs x (by simp [hx])
    simp only [List.cons_append, djb2_loop, hb, if_false, List.foldl_cons]
    exact ih _ hrest

/-- The loop of `djb2` does not depend on the bytes after a zero byte. -/
theorem djb2_loop_tail_irrelevant (W : Nat) (charSigned : Bool) (t₁ t₂ : List Byte) :
    ∀ (s : List Byte) (h : Nat),
      djb2_loop W charSigned (s ++ 0 :: t₁) h = djb2_loop W charSigned (s ++ 0 :: t₂) h := by
  intro s
  induction s with
  | nil =>
    intro h
    simp [djb2_loop, (charToInt_eq_zero_iff charSigned 0).mpr rfl]
  | cons b s ih =>
    intro h
    simp only [List.cons_append, djb2_loop]
    split
    · rfl
    · exact ih _

/-- The loop of `djb2` returns on every memory that holds a zero byte. -/
theorem djb2_loop_returns (W : Nat) (charSigned : Bool) :
    ∀ (mem : List Byte) (h : Nat), (0 : Byte) ∈ mem →
      ∃ v, djb2_loop W charSigned mem h = Outcome.returned v := by
  intro mem
  induction mem with
  | nil => intro h hmem; simp at hmem
  | cons b mem ih =>
    intro h hmem
    simp only [djb2_loop]
    by_cases hb : charToInt charSigned b = 0
    · exact ⟨h, by simp [hb]⟩
    · have hb0 : b ≠ 0 := fun e => hb ((charToInt_eq_zero_iff charSigned b).mpr e)
      have hin : (0 : Byte) ∈ mem := by
        rcases List.mem_cons.mp hmem with e | e
        · exact absurd e.symm hb0
        · exact e
      simp only [hb, if_false]
      exact ih _ hin

/-- The shift-add body is `hash * 33 + c` modulo `2 ^ W` whenever the byte is
read as its own value: plain `char` unsigned, or the byte below 128. -/
theorem djb2_step_eq (W : Nat) (charSigned : Bool) (h : Nat) (b : Byte)
    (hc : charSigned = false ∨ b.val < 128) :
    djb2_step W charSigned h b = (h * 33 + b.val) % 2 ^ W := by
  have hchar : charToInt charSigned b = (b.val : Int) := by
    unfold charToInt
    rcases hc with hc | hc
    · simp [hc]
    · have : ¬ 128 ≤ b.val := by omega
      simp [this]
  unfold djb2_step
  rw [hchar, intToULong_natCast, Nat.shiftLeft_eq, Nat.mod_add_mod, Nat.add_mod_mod,
    Nat.add_assoc, Nat.mod_add_mod]
  congr 1
  omega

/-! ## FNV-1a: the function computed -/

/-- Claim C1. On a buffer valid for `n` bytes, `fnv1a_32 (data, n)` returns the
left-to-right fold over `data[0..n)` that starts from `0x811c9dc5` and replaces
the accumulator `h` by `((h XOR b) * 0x01000193) mod 2^32` at each byte `b`. -/
theorem fnv1a_32_eq_fold (data : List Byte) (n : Nat) (hvalid : n ≤ data.length) :
    fnv1a_32 data n = Outcome.returned
      (List.foldl (fun h (b : Byte) => ((h ^^^ b.val) * 0x01000193) % 2 ^ 32)
        0x811c9dc5 (data.take n)) := by
  unfold fnv1a_32
  rw [fnv1a_run_returns _ _ _ _ _ hvalid]
  rfl

/-- Claim C1 at the buffer `"foobar"` read for its first three bytes. -/
theorem fnv1a_32_eq_fold_witness :
    3 ≤ List.length ([0x66, 0x6f, 0x6f, 0x62, 0x61, 0x72] : List Byte) ∧
    fnv1a_32 [0x66, 0x6f, 0x6f, 0x62, 0x61, 0x72] 3 = Outcome.returned
      (List.foldl (fun h (b : Byte) => ((h ^^^ b.val) * 0x01000193) % 2 ^ 32)
        0x811c9dc5 (List.take 3 [0x66, 0x6f, 0x6f, 0x62, 0x61, 0x72])) :=
  ⟨by decide, fnv1a_32_eq_fold [0x66, 0x6f, 0x6f, 0x62, 0x61, 0x72] 3 (by decide)⟩

/-- Claim C2. On a buffer valid for `n` bytes, `fnv1a_64 (data, n)` returns the
left-to-right fold over `data[0..n)` that starts from `0xcbf29ce484222325` and
replaces the accumulator `h` by `((h XOR b) * 0x100000001b3) mod 2^64` at each
byte `b`. -/
theorem fnv1a_64_eq_fold (data : List Byte) (n : Nat) (hvalid : n ≤ data.length) :
    fnv1a_64 data n = Outcome.returned
      (List.foldl (fun h (b : Byte) => ((h ^^^ b.val) * 0x100000001b3) % 2 ^ 64)
        0xcbf29ce484222325 (data.take n)) := by
  unfold fnv1a_64
  rw [fnv1a_run_returns _ _ _ _ _ hvalid]
  rfl

/-- Claim C2 at the buffer `"foobar"` read for its first four bytes. -/
theorem fnv1a_64_eq_fold_witness :
    4 ≤ List.length ([0x66, 0x6f, 0x6f, 0x62, 0x61, 0x72] : List Byte) ∧
    fnv1a_64 [0x66, 0x6f, 0x6f, 0x62, 0x61, 0x72] 4 = Outcome.returned
      (List.foldl (fun h (b : Byte) => ((h ^^^ b.val) * 0x100000001b3) % 2 ^ 64)
        0xcbf29ce484222325 (List.take 4 [0x66, 0x6f, 0x6f, 0x62, 0x61, 0x72])) :=
  ⟨by decide, fnv1a_64_eq_fold [0x66, 0x6f, 0x6f, 0x62, 0x61, 0x72] 4 (by decide)⟩

/-- Claim C4. Whatever the buffer, a zero length returns the offset basis
unchanged, for both widths. -/
theorem fnv1a_zero_length (data : List Byte) :
    fnv1a_32 data 0 = Outcome.returned 0x811c9dc5 ∧
    fnv1a_64 data 0 = Outcome.returned 0xcbf29ce484222325 :=
  ⟨rfl, rfl⟩

/-- Claim C7. Wraparound: for both widths and every byte sequence `s`, the
value returned for `s` is below `2^w` and is the arbitrary-precision reference,
computed with no intermediate reduction, reduced modulo `2^w`. -/
theorem fnv1a_wraparound (s : List Byte) :
    (∃ v, fnv1a_32 s s.length = Outcome.returned v ∧ v < 2 ^ 32 ∧
      v = fnv1a_reference 0x811c9dc5 0x01000193 s % 2 ^ 32) ∧
    (∃ v, fnv1a_64 s s.length = Outcome.returned v ∧ v < 2 ^ 64 ∧
      v = fnv1a_reference 0xcbf29ce484222325 0x100000001b3 s % 2 ^ 64) := by
  have h32 : List.foldl (fnv1a_step 32 FNV_PRIME_32) FNV_OFFSET_BASIS_32 s
      = fnv1a_reference 0x811c9dc5 0x01000193 s % 2 ^ 32 :=
    fnv1a_fold_mod 32 FNV_PRIME_32 (by decide) s 0x811c9dc5
  have h64 : List.foldl (fnv1a_step 64 FNV_PRIME_64) FNV_OFFSET_BASIS_64 s
      = fnv1a_reference 0xcbf29ce484222325 0x100000001b3 s % 2 ^ 64 :=
    fnv1a_fold_mod 64 FNV_PRIME_64 (by decide) s 0xcbf29ce484222325
  refine ⟨⟨_, ?_, ?_, h32⟩, ⟨_, ?_, ?_, h64⟩⟩
  · unfold fnv1a_32
    rw [fnv1a_run_returns _ _ _ _ _ (Nat.le_refl _), List.take_length]
    rfl
  · rw [h32]
    exact Nat.mod_lt _ (by decide)
  · unfold fnv1a_64
    rw [fnv1a_run_returns _ _ _ _ _ (Nat.le_refl _), List.take_length]
    rfl
  · rw [h64]
    exact Nat.mod_lt _ (by decide)

/-- Claim C8. Algorithm ordering: on the one-byte input `0x61` (`"a"`) the
FNV-1a value returned by the code differs from the FNV-1 value (multiply, then
XOR, same offset basis), for the 32-bit and for the 64-bit width. -/
theorem fnv1a_differs_from_fnv1 :
    (fnv1a_32 [0x61] 1 = Outcome.returned 0xe40c292c ∧
      fnv1_reference 32 0x811c9dc5 0x01000193 [0x61] = 0x050c5d7e ∧
      fnv1a_32 [0x61] 1 ≠ Outcome.returned (fnv1_reference 32 0x811c9dc5 0x01000193 [0x61])) ∧
    (fnv1a_64 [0x61] 1 = Outcome.returned 0xaf63dc4c8601ec8c ∧
      fnv1_reference 64 0xcbf29ce484222325 0x100000001b3 [0x61] = 0xaf63bd4c8601b7be ∧
      fnv1a_64 [0x61] 1
        ≠ Outcome.returned (fnv1_reference 64 0xcbf29ce484222325 0x100000001b3 [0x61])) := by
  decide

/-- Claim C10. The FNV variants have no error path: on a buffer that holds at
least `length` readable bytes each of them returns, after exactly `length`
executions of the loop body, having read exactly the indices `0 .. length-1`,
all of them inside the buffer. -/
theorem fnv1a_no_error_path (data : List Byte) (length : Nat)
    (hvalid : length ≤ data.length) :
    (∃ s, fnv1a_run 32 FNV_OFFSET_BASIS_32 FNV_PRIME_32 data length = Outcome.returned s ∧
      fnv1a_32 data length = Outcome.returned s.hash ∧
      s.reads = List.range length ∧ (∀ k ∈ s.reads, k < length ∧ k < data.length) ∧
      s.iters = length) ∧
    (∃ s, fnv1a_run 64 FNV_OFFSET_BASIS_64 FNV_PRIME_64 data length = Outcome.returned s ∧
      fnv1a_64 data length = Outcome.returned s.hash ∧
      s.reads = List.range length ∧ (∀ k ∈ s.reads, k < length ∧ k < data.length) ∧
      s.iters = length) := by
  have hmem : ∀ k ∈ List.range length, k < length ∧ k < data.length := by
    intro k hk
    have := List.mem_range.mp hk
    omega
  constructor
  · refine ⟨_, fnv1a_run_returns 32 _ _ data length hvalid, ?_, rfl, hmem, rfl⟩
    unfold fnv1a_32
    rw [fnv1a_run_returns _ _ _ _ _ hvalid]
    rfl
  · refine ⟨_, fnv1a_run_returns 64 _ _ data length hvalid, ?_, rfl, hmem, rfl⟩
    unfold fnv1a_64
    rw [fnv1a_run_returns _ _ _ _ _ hvalid]
    rfl

/-- Claim C10 at a six-byte buffer hashed for its first five bytes. -/
theorem fnv1a_no_error_path_witness :
    5 ≤ List.length ([0x66, 0x6f, 0x6f, 0x62, 0x61, 0x72] : List Byte) ∧
    (∃ s, fnv1a_run 32 FNV_OFFSET_BASIS_32 FNV_PRIME_32 [0x66, 0x6f, 0x6f, 0x62, 0x61, 0x72] 5
        = Outcome.returned s ∧
      fnv1a_32 [0x66, 0x6f, 0x6f, 0x62, 0x61, 0x72] 5 = Outcome.returned s.hash ∧
      s.reads = [0, 1, 2, 3, 4] ∧ s.iters = 5) :=
  ⟨by decide,
    let ⟨s, hrun, hval, hreads, _, hiters⟩ :=
      (fnv1a_no_error_path [0x66, 0x6f, 0x6f, 0x62, 0x61, 0x72] 5 (by decide)).1
    ⟨s, hrun, hval, hreads.trans (by decide), hiters⟩⟩

/-! ## djb2: the function computed -/

/-- Claim C3, refuted as stated. Where plain `char` is signed and `unsigned long`
has 64 bits, `djb2` of the one-byte string `[0x80]` returns `177445`, while the
fold `accumulator = (accumulator * 33 + c) mod 2^64` with `c = 128` from `5381`
is `177701`. -/
theorem djb2_high_byte_counterexample :
    djb2 64 true (some [0x80, 0]) = Outcome.returned 177445 ∧
    List.foldl (fun h (c : Byte) => (h * 33 + c.val) % 2 ^ 64) 5381 [0x80] = 177701 ∧
    djb2 64 true (some [0x80, 0])
      ≠ Outcome.returned
        (List.foldl (fun h (c : Byte) => (h * 33 + c.val) % 2 ^ 64) 5381 [0x80]) := by
  decide

/-- Claim C3, amended. For an `unsigned long` of `W ≥ 32` bits and a non-null
string whose bytes `s` before the terminator are non-zero and are all below 128,
or are arbitrary non-zero bytes where plain `char` is unsigned, `djb2` returns
the fold from `5381` of `accumulator = (accumulator * 33 + c) mod 2^W` over the
bytes of `s` in order, whatever follows the terminator. -/
theorem djb2_eq_fold (W : Nat) (charSigned : Bool) (s t : List Byte)
    (hW : 32 ≤ W) (hs : ∀ b ∈ s, b ≠ 0)
    (hc : charSigned = false ∨ ∀ b ∈ s, b.val < 128) :
    djb2 W charSigned (some (s ++ 0 :: t)) = Outcome.returned
      (List.foldl (fun h (c : Byte) => (h * 33 + c.val) % 2 ^ W) 5381 s) := by
  have hinit : 5381 % 2 ^ W = 5381 := by
    apply Nat.mod_eq_of_lt
    calc 5381 < 2 ^ 32 := by decide
      _ ≤ 2 ^ W := Nat.pow_le_pow_right (by decide) hW
  have hfold : ∀ (l : List Byte) (h : Nat),
      (charSigned = false ∨ ∀ b ∈ l, b.val < 128) →
      List.foldl (djb2_step W charSigned) h l
        = List.foldl (fun h (c : Byte) => (h * 33 + c.val) % 2 ^ W) h l := by
    intro l
    induction l with
    | nil => intro h _; rfl
    | cons b l ih =>
      intro h hl
      have hb : charSigned = false ∨ b.val < 128 :=
        hl.imp id (fun hall => hall b (by simp))
      have hrest : charSigned = false ∨ ∀ x ∈ l, x.val < 128 :=
        hl.imp id (fun hall x hx => hall x (by simp [hx]))
      simp only [List.foldl_cons, djb2_step_eq W charSigned h b hb]
      exact ih _ hrest
  unfold djb2
  simp only [hinit]
  rw [djb2_loop_terminated W charSigned t s 5381 hs, hfold s 5381 hc]

/-- Claim C3, amended, at the string `"hi"` followed by stray bytes, on the
64-bit target with signed `char`. -/
theorem djb2_eq_fold_witness :
    djb2 64 true (some ([0x68, 0x69] ++ 0 :: [0xff, 0x01])) = Outcome.returned
      (List.foldl (fun h (c : Byte) => (h * 33 + c.val) % 2 ^ 64) 5381 [0x68, 0x69]) :=
  djb2_eq_fold 64 true [0x68, 0x69] [0xff, 0x01] (by norm_num)
    (by intro b hb; fin_cases hb <;> decide)
    (Or.inr (by intro b hb; fin_cases hb <;> decide))

/-- Claim C5. `djb2` fails exactly on the null pointer: on a null input it
reports the error, exits with `EXIT_FAILURE` and returns no hash; on every
non-null input that holds a terminator it returns a hash and does not exit. -/
theorem djb2_fails_iff_null (W : Nat) (charSigned : Bool) (str : Option (List Byte))
    (hterm : ∀ mem, str = some mem → (0 : Byte) ∈ mem) :
    ((∃ e c, djb2 W charSigned str = Outcome.exited e c) ↔ str = none) ∧
    (str = none →
      djb2 W charSigned str
          = Outcome.exited "Error: Null string passed to djb2.\n" EXIT_FAILURE ∧
        ∀ v, djb2 W charSigned str ≠ Outcome.returned v) ∧
    (str ≠ none →
      (∃ v, djb2 W charSigned str = Outcome.returned v) ∧
        ∀ e c, djb2 W charSigned str ≠ Outcome.exited e c) := by
  cases str with
  | none =>
    refine ⟨⟨fun _ => rfl, fun _ => ⟨_, _, rfl⟩⟩, fun _ => ⟨rfl, ?_⟩, fun h => absurd rfl h⟩
    intro v hv
    simp [djb2] at hv
  | some mem =>
    obtain ⟨v, hv⟩ := djb2_loop_returns W charSigned mem (5381 % 2 ^ W) (hterm mem rfl)
    have hret : djb2 W charSigned (some mem) = Outcome.returned v := hv
    refine ⟨⟨?_, fun h => by simp at h⟩, fun h => by simp at h, fun _ => ⟨⟨v, hret⟩, ?_⟩⟩
    · rintro ⟨e, c, h⟩
      rw [hret] at h
      simp at h
    · intro e c h
      rw [hret] at h
      simp at h

/-- Claim C5 at the terminated string `"hi"`. -/
theorem djb2_fails_iff_null_witness :
    (∃ v, djb2 64 true (some [0x68, 0x69, 0]) = Outcome.returned v) ∧
    ∀ e c, djb2 64 true (some [0x68, 0x69, 0]) ≠ Outcome.exited e c :=
  (djb2_fails_iff_null 64 true (some [0x68, 0x69, 0])
    (fun mem h => by cases h; decide)).2.2 (by simp)

/-- Claim C6. The known vector: `djb2 ("hello")` returns `210714636441` when
`unsigned long` has 64 bits, and `261238937 = 210714636441 mod 2^32` when it has
32 bits, whatever the signedness of plain `char`. -/
theorem djb2_hello (charSigned : Bool) :
    djb2 64 charSigned (some test_str) = Outcome.returned 210714636441 ∧
    djb2 32 charSigned (some test_str) = Outcome.returned 261238937 ∧
    210714636441 % 2 ^ 32 = 261238937 := by
  cases charSigned <;> decide

/-! ## Determinism -/

/-- Claim C9. The hash functions are functions of the input bytes alone: two
buffers valid for `length` bytes that agree on `[0, length)` give the same
returned `fnv1a_32` and `fnv1a_64` value whatever lies beyond, and two strings
that agree up to and including a zero byte give the same returned `djb2` value
whatever follows it. With both buffers equal this is the equality of any two
evaluations on the same input. -/
theorem hash_deterministic (W : Nat) (charSigned : Bool)
    (d₁ d₂ : List Byte) (length : Nat)
    (h₁ : length ≤ d₁.length) (h₂ : length ≤ d₂.length)
    (hagree : d₁.take length = d₂.take length) (s t₁ t₂ : List Byte) :
    (∃ v, fnv1a_32 d₁ length = Outcome.returned v ∧ fnv1a_32 d₂ length = Outcome.returned v) ∧
    (∃ v, fnv1a_64 d₁ length = Outcome.returned v ∧ fnv1a_64 d₂ length = Outcome.returned v) ∧
    (∃ v, djb2 W charSigned (some (s ++ 0 :: t₁)) = Outcome.returned v ∧
      djb2 W charSigned (some (s ++ 0 :: t₂)) = Outcome.returned v) := by
  refine ⟨⟨List.foldl (fnv1a_step 32 FNV_PRIME_32) FNV_OFFSET_BASIS_32 (d₁.take length),
      ?_, ?_⟩,
    ⟨List.foldl (fnv1a_step 64 FNV_PRIME_64) FNV_OFFSET_BASIS_64 (d₁.take length), ?_, ?_⟩, ?_⟩
  · unfold fnv1a_32
    rw [fnv1a_run_returns _ _ _ _ _ h₁]
    rfl
  · unfold fnv1a_32
    rw [fnv1a_run_returns _ _ _ _ _ h₂, ← hagree]
    rfl
  · unfold fnv1a_64
    rw [fnv1a_run_returns _ _ _ _ _ h₁]
    rfl
  · unfold fnv1a_64
    rw [fnv1a_run_returns _ _ _ _ _ h₂, ← hagree]
    rfl
  · obtain ⟨v, hv⟩ := djb2_loop_returns W charSigned (s ++ 0 :: t₁) (5381 % 2 ^ W) (by simp)
    refine ⟨v, hv, ?_⟩
    unfold djb2
    simp only
    rw [djb2_loop_tail_irrelevant W charSigned t₂ t₁ s]
    exact hv

/-- Claim C9 at two buffers that share their first two bytes and two strings
that share `"hi"` and its terminator. -/
theorem hash_deterministic_witness :
    (∃ v, fnv1a_32 [0x61, 0x62, 0x01] 2 = Outcome.returned v ∧
      fnv1a_32 [0x61, 0x62, 0xfe, 0x07] 2 = Outcome.returned v) ∧
    (∃ v, fnv1a_64 [0x61, 0x62, 0x01] 2 = Outcome.returned v ∧
      fnv1a_64 [0x61, 0x62, 0xfe, 0x07] 2 = Outcome.returned v) ∧
    (∃ v, djb2 64 true (some ([0x68, 0x69] ++ 0 :: [0x21])) = Outcome.returned v ∧
      djb2 64 true (some ([0x68, 0x69] ++ 0 :: [0x90, 0x00, 0x33])) = Outcome.returned v) :=
  hash_deterministic 64 true [0x61, 0x62, 0x01] [0x61, 0x62, 0xfe, 0x07] 2
    (by decide) (by decide) (by decide) [0x68, 0x69] [0x21] [0x90, 0x00, 0x33]

/-! ## djb2: terminator, shift-add, closed form -/

/-- The body of the `djb2` loop adds the `int` read from the string to 33 times
the accumulator, modulo `2 ^ W`; the sum is taken over the integers because the
`int` may be negative. -/
theorem djb2_step_int (W : Nat) (charSigned : Bool) (h : Nat) (b : Byte) :
    ((djb2_step W charSigned h b : Nat) : Int)
      = ((h : Int) * 33 + charToInt charSigned b) % (2 : Int) ^ W := by
  have hpos : (0 : Int) < (2 : Int) ^ W := by positivity
  have hnn : 0 ≤ charToInt charSigned b % (2 : Int) ^ W := Int.emod_nonneg _ (ne_of_gt hpos)
  unfold djb2_step intToULong
  rw [Nat.shiftLeft_eq]
  push_cast
  rw [Int.toNat_of_nonneg hnn]
  simp only [Int.emod_add_emod, Int.add_emod_emod, Int.emod_emod_of_dvd, dvd_refl]
  have e : (h : Int) * 32 + h + charToInt charSigned b = h * 33 + charToInt charSigned b := by
    ring
  rw [e]

/-- Claim C11. `djb2` stops at the first zero byte: for bytes `s` with no zero
among them and any bytes `t`, `djb2` on `s`, a zero byte, then `t` returns, and
returns what it returns on `s` followed by the terminator alone, namely the fold
of the loop body over `s`; `t` has no influence. -/
theorem djb2_stops_at_first_zero (W : Nat) (charSigned : Bool) (s t : List Byte)
    (hs : ∀ b ∈ s, b ≠ 0) :
    djb2 W charSigned (some (s ++ 0 :: t)) = djb2 W charSigned (some (s ++ [0])) ∧
    djb2 W charSigned (some (s ++ 0 :: t))
      = Outcome.returned (List.foldl (djb2_step W charSigned) (5381 % 2 ^ W) s) := by
  unfold djb2
  simp only
  rw [djb2_loop_terminated W charSigned t s _ hs, djb2_loop_terminated W charSigned [] s _ hs]
  exact ⟨rfl, rfl⟩

/-- Claim C11 at `"hi"`, a zero byte, then three stray bytes one of which is zero. -/
theorem djb2_stops_at_first_zero_witness :
    djb2 64 true (some ([0x68, 0x69] ++ 0 :: [0x41, 0x00, 0xc3]))
      = djb2 64 true (some ([0x68, 0x69] ++ [0])) ∧
    djb2 64 true (some ([0x68, 0x69] ++ 0 :: [0x41, 0x00, 0xc3]))
      = Outcome.returned (List.foldl (djb2_step 64 true) (5381 % 2 ^ 64) [0x68, 0x69]) :=
  djb2_stops_at_first_zero 64 true [0x68, 0x69] [0x41, 0x00, 0xc3]
    (by intro b hb; fin_cases hb <;> decide)

/-- Claim C13. The shift-add step of `djb2` is multiplication by 33: for every
accumulator `h` and every byte, `((h << 5) + h) + c` in `W`-bit wraparound
arithmetic is `(h * 33 + c) mod 2^W`, `c` being the `int` read from the byte
(over the integers, as `c` is negative for a high byte under signed `char`),
and in particular the byte's own value when `char` is unsigned. -/
theorem djb2_shift_add_is_mul_33 (W : Nat) (charSigned : Bool) (h : Nat) (c : Byte) :
    ((djb2_step W charSigned h c : Nat) : Int)
      = ((h : Int) * 33 + charToInt charSigned c) % (2 : Int) ^ W ∧
    djb2_step W false h c = (h * 33 + c.val) % 2 ^ W ∧
    (((h <<< 5) % 2 ^ W + h) % 2 ^ W) = (h * 33) % 2 ^ W := by
  refine ⟨djb2_step_int W charSigned h c, djb2_step_eq W false h c (Or.inl rfl), ?_⟩
  have e : h * 2 ^ 5 + h = h * 33 := by omega
  rw [Nat.shiftLeft_eq, Nat.mod_add_mod, e]

/-! ## Multiplicative fold: range and bucket array -/

/-- The shift count of `hash_64_generic` for `bits` between 0 and 64. -/
theorem shift_count_eq (bits : Nat) (h64 : bits ≤ 64) :
    (((64 : Int) - (bits : Int)) % (2 : Int) ^ 32).toNat = 64 - bits := by
  have h : ((64 : Int) - (bits : Int)) % (2 : Int) ^ 32 = ((64 - bits : Nat) : Int) := by
    norm_num
    omega
  rw [h, Int.toNat_natCast]

/-- Keeping the top `bits` bits of a 64-bit value leaves a value below `2 ^ bits`. -/
theorem shiftRight_lt_two_pow (x bits : Nat) (hx : x < 2 ^ 64) (h64 : bits ≤ 64) :
    x >>> (64 - bits) < 2 ^ bits := by
  rw [Nat.shiftRight_eq_div_pow, Nat.div_lt_iff_lt_mul (by positivity), ← Nat.pow_add]
  have e : bits + (64 - bits) = 64 := by omega
  rw [e]
  exact hx

/-- Claim C12, refuted as stated. At `bits = 31` (and `val = 1`, the kernel's
golden-ratio constant) `hash_64_generic` returns `820265763`, but
`DEFINE_HASHTABLE (name, 31)` declares no array: its size `1 << 31` is not
representable in `int`. So there is no `2^31`-bucket array for the value to
index. -/
theorem hash_64_generic_no_table_counterexample :
    hash_64_generic 64 0x61C8864680B583EB (fun _ _ => 0) (fun _ => 0) 1 31 = some 820265763 ∧
    DEFINE_HASHTABLE (hlist_head.mk none) 31 = none ∧
    ¬ ∃ table, DEFINE_HASHTABLE (hlist_head.mk none) 31 = some table ∧
        table.length = 2 ^ 31 ∧ 820265763 < table.length := by
  refine ⟨by decide, by decide, ?_⟩
  rintro ⟨table, htable, _⟩
  have hnone : DEFINE_HASHTABLE (hlist_head.mk none) 31 = none := by decide
  rw [hnone] at htable
  cases htable

/-- Claim C12, amended. On a 64-bit build, for every `val`, every `bits` from 1
to 64 and whatever the constant `GOLDEN_RATIO_64`, `hash_64_generic (val, bits)`
returns `((val * GOLDEN_RATIO_64) mod 2^64) >> (64 - bits)` truncated to 32
bits, a value from 0 to `2^bits - 1`. For `bits` up to 30
`DEFINE_HASHTABLE (name, bits)` declares an array of exactly `2^bits` buckets
and the value is an index inside it; from `bits = 31` on it declares no array. -/
theorem hash_64_generic_range (GOLDEN_RATIO_64 : Nat)
    (hash_32 : Nat → Nat → Nat) (hash_32_raw : Nat → Nat) (HLIST_HEAD_INIT : hlist_head)
    (val bits : Nat) (h1 : 1 ≤ bits) (h64 : bits ≤ 64) :
    ∃ r, hash_64_generic 64 GOLDEN_RATIO_64 hash_32 hash_32_raw val bits = some r ∧
      r = (((val * GOLDEN_RATIO_64) % 2 ^ 64) >>> (64 - bits)) % 2 ^ 32 ∧
      r < 2 ^ bits ∧
      (bits ≤ 30 → ∃ table, DEFINE_HASHTABLE HLIST_HEAD_INIT bits = some table ∧
        table.length = 2 ^ bits ∧ r < table.length) ∧
      (31 ≤ bits → DEFINE_HASHTABLE HLIST_HEAD_INIT bits = none) := by
  have hcount := shift_count_eq bits h64
  have hlt : (((val * GOLDEN_RATIO_64) % 2 ^ 64) >>> (64 - bits)) % 2 ^ 32 < 2 ^ bits :=
    lt_of_le_of_lt (Nat.mod_le _ _)
      (shiftRight_lt_two_pow _ bits (Nat.mod_lt _ (by positivity)) h64)
  refine ⟨_, ?_, rfl, hlt, ?_, ?_⟩
  · unfold hash_64_generic
    simp only [if_true, hcount]
    rw [if_pos (by omega)]
  · intro h30
    have hlen : (List.replicate (1 <<< bits) HLIST_HEAD_INIT).length = 2 ^ bits := by
      rw [List.length_replicate, Nat.shiftLeft_eq, Nat.one_mul]
    refine ⟨List.replicate (1 <<< bits) HLIST_HEAD_INIT, ?_, hlen, ?_⟩
    · unfold DEFINE_HASHTABLE
      rw [if_pos (by omega)]
    · rw [hlen]
      exact hlt
  · intro h31
    unfold DEFINE_HASHTABLE
    rw [if_neg (by omega)]

/-- Claim C12, amended, at `val = 1`, `bits = 8` and the kernel's golden-ratio
constant: the value is inside the 256-bucket array that is declared. -/
theorem hash_64_generic_range_witness :
    ∃ r, hash_64_generic 64 0x61C8864680B583EB (fun _ _ => 0) (fun _ => 0) 1 8 = some r ∧
      r = (((1 * 0x61C8864680B583EB) % 2 ^ 64) >>> (64 - 8)) % 2 ^ 32 ∧
      r < 2 ^ 8 ∧
      ∃ table, DEFINE_HASHTABLE (hlist_head.mk none) 8 = some table ∧
        table.length = 2 ^ 8 ∧ r < table.length :=
  let ⟨r, hr, hval, hlt, htable, _⟩ :=
    hash_64_generic_range 0x61C8864680B583EB (fun _ _ => 0) (fun _ => 0) (hlist_head.mk none)
      1 8 (by norm_num) (by norm_num)
  ⟨r, hr, hval, hlt, htable (by norm_num)⟩

/-! ## FNV-1a: the shift-add form of the prime -/

/-- The shift-add form with low factor `0x93` is the multiplication by
`FNV_PRIME_32` modulo `2^32`, since `0x01000193 = 2^24 + 2^8 + 0x93`. -/
theorem fnv_prime_32_shift_add_eq_mul (hash : Nat) :
    fnv_prime_32_shift_add 0x93 hash = (hash * FNV_PRIME_32) % 2 ^ 32 := by
  unfold fnv_prime_32_shift_add FNV_PRIME_32
  simp only [Nat.shiftLeft_eq]
  omega

/-- Claim C14, refuted as stated. At `hash = 1` the product `hash * 16777619` is
`16777619` while `(hash << 24) + (hash << 8) + (hash * 3)` is `16777475`; and on
the one-byte input `0x61` the value `fnv1a_32` returns differs from the one
obtained with the multiply replaced by that shift-add form. -/
theorem fnv_shift_add_comment_counterexample :
    (1 * FNV_PRIME_32) % 2 ^ 32 = 16777619 ∧
    fnv_prime_32_shift_add 3 1 = 16777475 ∧
    (1 * FNV_PRIME_32) % 2 ^ 32 ≠ fnv_prime_32_shift_add 3 1 ∧
    fnv1a_32 [0x61] 1 = Outcome.returned 0xe40c292c ∧
    List.foldl (fun h (b : Byte) => fnv_prime_32_shift_add 3 (h ^^^ b.val))
      FNV_OFFSET_BASIS_32 [0x61] = 0x43f37cec ∧
    fnv1a_32 [0x61] 1 ≠ Outcome.returned
      (List.foldl (fun h (b : Byte) => fnv_prime_32_shift_add 3 (h ^^^ b.val))
        FNV_OFFSET_BASIS_32 [0x61]) := by
  decide

/-- Claim C14, amended. For every hash value,
`hash * 16777619 = (hash << 24) + (hash << 8) + (hash * 147)` modulo `2^32`, and
on a buffer valid for `n` bytes `fnv1a_32` returns the same value when its
multiply is replaced by that right-hand side. -/
theorem fnv_prime_32_shift_add_correct (hash : Nat) (data : List Byte) (n : Nat)
    (hvalid : n ≤ data.length) :
    (hash * 16777619) % 2 ^ 32 = fnv_prime_32_shift_add 147 hash ∧
    fnv1a_32 data n = Outcome.returned
      (List.foldl (fun h (b : Byte) => fnv_prime_32_shift_add 147 (h ^^^ b.val))
        FNV_OFFSET_BASIS_32 (data.take n)) := by
  refine ⟨(fnv_prime_32_shift_add_eq_mul hash).symm, ?_⟩
  have hstep : (fun h (b : Byte) => fnv_prime_32_shift_add 147 (h ^^^ b.val))
      = fnv1a_step 32 FNV_PRIME_32 := by
    funext h b
    exact fnv_prime_32_shift_add_eq_mul (h ^^^ b.val)
  unfold fnv1a_32
  rw [fnv1a_run_returns _ _ _ _ _ hvalid, hstep]
  rfl

/-- Claim C14, amended, at a hash value whose shifts discard high bits and at
the buffer `"foobar"`. -/
theorem fnv_prime_32_shift_add_correct_witness :
    (0xdeadbeef * 16777619) % 2 ^ 32 = fnv_prime_32_shift_add 147 0xdeadbeef ∧
    fnv1a_32 [0x66, 0x6f, 0x6f, 0x62, 0x61, 0x72] 6 = Outcome.returned
      (List.foldl (fun h (b : Byte) => fnv_prime_32_shift_add 147 (h ^^^ b.val))
        FNV_OFFSET_BASIS_32 (List.take 6 [0x66, 0x6f, 0x6f, 0x62, 0x61, 0x72])) :=
  fnv_prime_32_shift_add_correct 0xdeadbeef [0x66, 0x6f, 0x6f, 0x62, 0x61, 0x72] 6
    (by decide)

/-! ## No single-byte collisions -/

/-- Multiplication by an odd number is injective modulo a power of two. -/
theorem mul_odd_cancel_mod (w p a b : Nat) (hp : p % 2 = 1)
    (ha : a < 2 ^ w) (hb : b < 2 ^ w) (h : (a * p) % 2 ^ w = (b * p) % 2 ^ w) : a = b := by
  have hcop : Nat.gcd (2 ^ w) p = 1 :=
    Nat.Coprime.pow_left w (Nat.coprime_two_left.mpr (Nat.odd_iff.mpr hp))
  exact (Nat.ModEq.cancel_right_of_coprime hcop h).eq_of_lt_of_lt ha hb

/-- A fold whose step stays below `M` stays below `M`. -/
theorem foldl_lt_of_step_lt {step : Nat → Byte → Nat} {M : Nat}
    (hstep : ∀ h b, step h b < M) :
    ∀ (l : List Byte) (h : Nat), h < M → List.foldl step h l < M := by
  intro l
  induction l with
  | nil => intro h hh; exact hh
  | cons b l ih => intro h _; exact ih _ (hstep h b)

/-- A fold whose step is injective in the accumulator is injective in its start. -/
theorem foldl_injective_of_step {step : Nat → Byte → Nat} {M : Nat}
    (hstep : ∀ h b, step h b < M)
    (hinj : ∀ h₁ h₂ b, h₁ < M → h₂ < M → step h₁ b = step h₂ b → h₁ = h₂) :
    ∀ (l : List Byte) (h₁ h₂ : Nat), h₁ < M → h₂ < M →
      List.foldl step h₁ l = List.foldl step h₂ l → h₁ = h₂ := by
  intro l
  induction l with
  | nil => intro h₁ h₂ _ _ h; exact h
  | cons b l ih =>
    intro h₁ h₂ hlt₁ hlt₂ h
    exact hinj h₁ h₂ b hlt₁ hlt₂ (ih _ _ (hstep h₁ b) (hstep h₂ b) h)

/-- Two inputs that differ in one byte fold to different values when the step
is injective in the accumulator and in the byte. -/
theorem foldl_single_byte_ne {step : Nat → Byte → Nat} {M : Nat}
    (hstep : ∀ h b, step h b < M)
    (hinj : ∀ h₁ h₂ b, h₁ < M → h₂ < M → step h₁ b = step h₂ b → h₁ = h₂)
    (hinjb : ∀ h b₁ b₂, h < M → step h b₁ = step h b₂ → b₁ = b₂)
    (h₀ : Nat) (hh₀ : h₀ < M) (pre suf : List Byte) (b₁ b₂ : Byte) (hne : b₁ ≠ b₂) :
    List.foldl step h₀ (pre ++ b₁ :: suf) ≠ List.foldl step h₀ (pre ++ b₂ :: suf) := by
  intro h
  simp only [List.foldl_append, List.foldl_cons] at h
  have hpre := foldl_lt_of_step_lt hstep pre h₀ hh₀
  have hmid := foldl_injective_of_step hstep hinj suf _ _ (hstep _ b₁) (hstep _ b₂) h
  exact hne (hinjb _ b₁ b₂ hpre hmid)

/-- The FNV-1a round is injective in the accumulator, for an odd prime. -/
theorem fnv1a_step_injective_left (w prime : Nat) (hw : 8 ≤ w) (hp : prime % 2 = 1)
    (h₁ h₂ : Nat) (b : Byte) (hlt₁ : h₁ < 2 ^ w) (hlt₂ : h₂ < 2 ^ w)
    (h : fnv1a_step w prime h₁ b = fnv1a_step w prime h₂ b) : h₁ = h₂ := by
  have hb : b.val < 2 ^ w :=
    lt_of_lt_of_le b.isLt (Nat.pow_le_pow_right (show 0 < 2 by decide) hw)
  have hx := mul_odd_cancel_mod w prime _ _ hp
    (Nat.xor_lt_two_pow hlt₁ hb) (Nat.xor_lt_two_pow hlt₂ hb) h
  exact Nat.xor_left_injective hx

/-- The FNV-1a round is injective in the byte, for an odd prime. -/
theorem fnv1a_step_injective_right (w prime : Nat) (hw : 8 ≤ w) (hp : prime % 2 = 1)
    (h : Nat) (b₁ b₂ : Byte) (hlt : h < 2 ^ w)
    (heq : fnv1a_step w prime h b₁ = fnv1a_step w prime h b₂) : b₁ = b₂ := by
  have hb : ∀ b : Byte, b.val < 2 ^ w := fun b =>
    lt_of_lt_of_le b.isLt (Nat.pow_le_pow_right (show 0 < 2 by decide) hw)
  have hx := mul_odd_cancel_mod w prime _ _ hp
    (Nat.xor_lt_two_pow hlt (hb b₁)) (Nat.xor_lt_two_pow hlt (hb b₂)) heq
  exact Fin.ext (Nat.xor_right_injective hx)

/-- Two buffers that differ in one byte have different FNV-1a accumulators. -/
theorem fnv1a_fold_single_byte_ne (w basis prime : Nat) (hw : 8 ≤ w) (hp : prime % 2 = 1)
    (hbasis : basis < 2 ^ w) (pre suf : List Byte) (b₁ b₂ : Byte) (hne : b₁ ≠ b₂) :
    List.foldl (fnv1a_step w prime) basis (pre ++ b₁ :: suf)
      ≠ List.foldl (fnv1a_step w prime) basis (pre ++ b₂ :: suf) :=
  foldl_single_byte_ne (fun _ _ => Nat.mod_lt _ (Nat.two_pow_pos w))
    (fnv1a_step_injective_left w prime hw hp)
    (fnv1a_step_injective_right w prime hw hp) basis hbasis pre suf b₁ b₂ hne

/-- Claim C15. No single-byte collisions in FNV-1a: two byte sequences of the
same length that differ at exactly one position, `pre ++ b₁ :: suf` and
`pre ++ b₂ :: suf` with `b₁ ≠ b₂`, are hashed to different values by `fnv1a_32`
and by `fnv1a_64`. -/
theorem fnv1a_no_single_byte_collision (pre suf : List Byte) (b₁ b₂ : Byte)
    (hne : b₁ ≠ b₂) :
    (∃ v₁ v₂, fnv1a_32 (pre ++ b₁ :: suf) (pre ++ b₁ :: suf).length = Outcome.returned v₁ ∧
      fnv1a_32 (pre ++ b₂ :: suf) (pre ++ b₂ :: suf).length = Outcome.returned v₂ ∧
      v₁ ≠ v₂) ∧
    (∃ v₁ v₂, fnv1a_64 (pre ++ b₁ :: suf) (pre ++ b₁ :: suf).length = Outcome.returned v₁ ∧
      fnv1a_64 (pre ++ b₂ :: suf) (pre ++ b₂ :: suf).length = Outcome.returned v₂ ∧
      v₁ ≠ v₂) := by
  constructor
  · refine ⟨List.foldl (fnv1a_step 32 FNV_PRIME_32) FNV_OFFSET_BASIS_32 (pre ++ b₁ :: suf),
      List.foldl (fnv1a_step 32 FNV_PRIME_32) FNV_OFFSET_BASIS_32 (pre ++ b₂ :: suf),
      ?_, ?_, ?_⟩
    · unfold fnv1a_32
      rw [fnv1a_run_returns _ _ _ _ _ (Nat.le_refl _), List.take_length]
      rfl
    · unfold fnv1a_32
      rw [fnv1a_run_returns _ _ _ _ _ (Nat.le_refl _), List.take_length]
      rfl
    · exact fnv1a_fold_single_byte_ne 32 _ _ (by decide) (by decide) (by decide)
        pre suf b₁ b₂ hne
  · refine ⟨List.foldl (fnv1a_step 64 FNV_PRIME_64) FNV_OFFSET_BASIS_64 (pre ++ b₁ :: suf),
      List.foldl (fnv1a_step 64 FNV_PRIME_64) FNV_OFFSET_BASIS_64 (pre ++ b₂ :: suf),
      ?_, ?_, ?_⟩
    · unfold fnv1a_64
      rw [fnv1a_run_returns _ _ _ _ _ (Nat.le_refl _), List.take_length]
      rfl
    · unfold fnv1a_64
      rw [fnv1a_run_returns _ _ _ _ _ (Nat.le_refl _), List.take_length]
      rfl
    · exact fnv1a_fold_single_byte_ne 64 _ _ (by decide) (by decide) (by decide)
        pre suf b₁ b₂ hne

/-- Claim C15 at `"fo?bar"` with the third byte `0x6f` against `0x70`. -/
theorem fnv1a_no_single_byte_collision_witness :
    (∃ v₁ v₂,
      fnv1a_32 ([0x66, 0x6f] ++ 0x6f :: [0x62, 0x61, 0x72])
        ([0x66, 0x6f] ++ 0x6f :: [0x62, 0x61, 0x72] : List Byte).length = Outcome.returned v₁ ∧
      fnv1a_32 ([0x66, 0x6f] ++ 0x70 :: [0x62, 0x61, 0x72])
        ([0x66, 0x6f] ++ 0x70 :: [0x62, 0x61, 0x72] : List Byte).length = Outcome.returned v₂ ∧
      v₁ ≠ v₂) :=
  (fnv1a_no_single_byte_collision [0x66, 0x6f] [0x62, 0x61, 0x72] 0x6f 0x70 (by decide)).1

/-- The `int` read from a byte determines the byte: modulo 256 it is the byte's value. -/
theorem charToInt_emod (charSigned : Bool) (b : Byte) :
    charToInt charSigned b % 256 = (b.val : Int) := by
  have hb := b.isLt
  unfold charToInt
  split <;> omega

/-- The body of the `djb2` loop is injective in the accumulator. -/
theorem djb2_step_injective_left (W : Nat) (charSigned : Bool)
    (h₁ h₂ : Nat) (b : Byte) (hlt₁ : h₁ < 2 ^ W) (hlt₂ : h₂ < 2 ^ W)
    (heq : djb2_step W charSigned h₁ b = djb2_step W charSigned h₂ b) : h₁ = h₂ := by
  have hcast := congrArg (Nat.cast : Nat → Int) heq
  rw [djb2_step_int, djb2_step_int] at hcast
  have hm : (h₁ : Int) * 33 ≡ (h₂ : Int) * 33 [ZMOD (2 : Int) ^ W] :=
    Int.ModEq.add_right_cancel' _ hcast
  have hn : h₁ * 33 ≡ h₂ * 33 [MOD 2 ^ W] := by
    apply Int.natCast_modEq_iff.mp
    push_cast
    exact hm
  exact mul_odd_cancel_mod W 33 h₁ h₂ (by decide) hlt₁ hlt₂ hn

/-- The body of the `djb2` loop is injective in the byte once `unsigned long`
has at least 8 bits. -/
theorem djb2_step_injective_right (W : Nat) (charSigned : Bool) (hW : 8 ≤ W)
    (h : Nat) (b₁ b₂ : Byte)
    (heq : djb2_step W charSigned h b₁ = djb2_step W charSigned h b₂) : b₁ = b₂ := by
  have hcast := congrArg (Nat.cast : Nat → Int) heq
  rw [djb2_step_int, djb2_step_int] at hcast
  have hm : charToInt charSigned b₁ ≡ charToInt charSigned b₂ [ZMOD (2 : Int) ^ W] :=
    Int.ModEq.add_left_cancel' _ hcast
  have hdvd : (256 : Int) ∣ (2 : Int) ^ W := by
    have : (2 : Int) ^ 8 ∣ (2 : Int) ^ W := pow_dvd_pow 2 hW
    simpa using this
  have h256 : charToInt charSigned b₁ % 256 = charToInt charSigned b₂ % 256 :=
    Int.ModEq.of_dvd hdvd hm
  rw [charToInt_emod, charToInt_emod] at h256
  exact Fin.ext (Int.ofNat_inj.mp h256)

/-- Claim C16. No single-byte collisions in `djb2`: two strings of the same
length with no zero byte that differ at exactly one position,
`pre ++ b₁ :: suf` and `pre ++ b₂ :: suf` with `b₁ ≠ b₂`, are hashed to
different values, for either signedness of `char` and an `unsigned long` of at
least 32 bits. -/
theorem djb2_no_single_byte_collision (W : Nat) (charSigned : Bool) (hW : 32 ≤ W)
    (pre suf : List Byte) (b₁ b₂ : Byte) (hne : b₁ ≠ b₂)
    (h₁ : ∀ b ∈ pre ++ b₁ :: suf, b ≠ 0) (h₂ : ∀ b ∈ pre ++ b₂ :: suf, b ≠ 0) :
    ∃ v₁ v₂, djb2 W charSigned (some ((pre ++ b₁ :: suf) ++ [0])) = Outcome.returned v₁ ∧
      djb2 W charSigned (some ((pre ++ b₂ :: suf) ++ [0])) = Outcome.returned v₂ ∧
      v₁ ≠ v₂ := by
  refine ⟨List.foldl (djb2_step W charSigned) (5381 % 2 ^ W) (pre ++ b₁ :: suf),
    List.foldl (djb2_step W charSigned) (5381 % 2 ^ W) (pre ++ b₂ :: suf), ?_, ?_, ?_⟩
  · exact djb2_loop_terminated W charSigned [] _ _ h₁
  · exact djb2_loop_terminated W charSigned [] _ _ h₂
  · exact foldl_single_byte_ne (fun _ _ => Nat.mod_lt _ (Nat.two_pow_pos W))
      (djb2_step_injective_left W charSigned)
      (fun h b₁ b₂ _ => djb2_step_injective_right W charSigned (by omega) h b₁ b₂)
      (5381 % 2 ^ W) (Nat.mod_lt _ (Nat.two_pow_pos W)) pre suf b₁ b₂ hne

/-- Claim C16 at `"hi!"` against `"ho!"`, hashed with signed `char` on 64 bits. -/
theorem djb2_no_single_byte_collision_witness :
    ∃ v₁ v₂, djb2 64 true (some (([0x68] ++ 0x69 :: [0x21]) ++ [0])) = Outcome.returned v₁ ∧
      djb2 64 true (some (([0x68] ++ 0x6f :: [0x21]) ++ [0])) = Outcome.returned v₂ ∧
      v₁ ≠ v₂ :=
  djb2_no_single_byte_collision 64 true (by norm_num) [0x68] [0x21] 0x69 0x6f (by decide)
    (by intro b hb; fin_cases hb <;> decide) (by intro b hb; fin_cases hb <;> decide)

/-! ## djb2: closed form and signedness of `char` -/

/-- On bytes that are read as their own value the loop body folds as
`hash * 33 + c` modulo `2 ^ W`. -/
theorem djb2_fold_eq (W : Nat) (charSigned : Bool) :
    ∀ (l : List Byte) (h : Nat), (charSigned = false ∨ ∀ b ∈ l, b.val < 128) →
      List.foldl (djb2_step W charSigned) h l
        = List.foldl (fun h (c : Byte) => (h * 33 + c.val) % 2 ^ W) h l := by
  intro l
  induction l with
  | nil => intro h _; rfl
  | cons b l ih =>
    intro h hl
    have hb : charSigned = false ∨ b.val < 128 :=
      hl.imp id (fun hall => hall b (by simp))
    have hrest : charSigned = false ∨ ∀ x ∈ l, x.val < 128 :=
      hl.imp id (fun hall x hx => hall x (by simp [hx]))
    simp only [List.foldl_cons, djb2_step_eq W charSigned h b hb]
    exact ih _ hrest

/-- The wrapped `hash * 33 + c` fold is the reduction of the unbounded one. -/
theorem djb2_fold_mod (W : Nat) (s : List Byte) :
    ∀ h : Nat, List.foldl (fun h (c : Byte) => (h * 33 + c.val) % 2 ^ W) (h % 2 ^ W) s
      = (List.foldl (fun h (c : Byte) => h * 33 + c.val) h s) % 2 ^ W := by
  induction s with
  | nil => intro h; rfl
  | cons b s ih =>
    intro h
    have hstep : ((h % 2 ^ W) * 33 + b.val) % 2 ^ W = (h * 33 + b.val) % 2 ^ W := by
      rw [Nat.add_mod, Nat.mod_mul_mod, ← Nat.add_mod]
    simp only [List.foldl_cons, hstep]
    exact ih _

/-- The unbounded `hash * 33 + c` fold in closed form. -/
theorem djb2_fold_closed_form (s : List Byte) :
    ∀ h : Nat, List.foldl (fun h (c : Byte) => h * 33 + c.val) h s
      = h * 33 ^ s.length
        + ∑ i ∈ Finset.range s.length, (s.getD i 0).val * 33 ^ (s.length - 1 - i) := by
  induction s with
  | nil => intro h; simp
  | cons b s ih =>
    intro h
    have hsum : ∑ i ∈ Finset.range s.length,
          ((b :: s).getD (i + 1) 0).val * 33 ^ ((b :: s).length - 1 - (i + 1))
        = ∑ i ∈ Finset.range s.length, (s.getD i 0).val * 33 ^ (s.length - 1 - i) := by
      apply Finset.sum_congr rfl
      intro i _
      have e : (b :: s).length - 1 - (i + 1) = s.length - 1 - i := by
        simp only [List.length_cons]
        omega
      rw [e, List.getD_cons_succ]
    rw [List.foldl_cons, ih, List.length_cons, Finset.sum_range_succ']
    simp only [List.length_cons] at hsum
    rw [hsum]
    simp only [List.getD_cons_zero, Nat.add_sub_cancel, Nat.sub_zero]
    ring

/-- Claim C17. Closed form of `djb2`: on a string of `n` bytes `c_0 .. c_(n-1)`,
each from 1 to 127, `djb2` returns
`(5381 * 33^n + sum over i < n of c_i * 33^(n-1-i)) mod 2^W` for an
`unsigned long` of `W ≥ 32` bits, whatever the signedness of `char`; on the
empty string it returns 5381. -/
theorem djb2_closed_form (W : Nat) (charSigned : Bool) (hW : 32 ≤ W) (s t : List Byte)
    (hs : ∀ b ∈ s, 1 ≤ b.val ∧ b.val ≤ 127) :
    djb2 W charSigned (some (s ++ 0 :: t)) = Outcome.returned
      ((5381 * 33 ^ s.length
        + ∑ i ∈ Finset.range s.length, (s.getD i 0).val * 33 ^ (s.length - 1 - i)) % 2 ^ W) ∧
    djb2 W charSigned (some (0 :: t)) = Outcome.returned 5381 := by
  have hinit : 5381 % 2 ^ W = 5381 := by
    apply Nat.mod_eq_of_lt
    calc 5381 < 2 ^ 32 := by decide
      _ ≤ 2 ^ W := Nat.pow_le_pow_right (by decide) hW
  have hnz : ∀ b ∈ s, b ≠ 0 := by
    intro b hb h0
    have := (hs b hb).1
    rw [h0] at this
    simp at this
  have hlow : ∀ b ∈ s, b.val < 128 := fun b hb => by
    have := (hs b hb).2
    omega
  constructor
  · unfold djb2
    simp only
    rw [djb2_loop_terminated W charSigned t s _ hnz, djb2_fold_eq W charSigned s _ (Or.inr hlow),
      djb2_fold_mod W s 5381, djb2_fold_closed_form s 5381]
  · have h := djb2_loop_terminated W charSigned t [] (5381 % 2 ^ W) (by simp)
    simp only [List.nil_append, List.foldl_nil, hinit] at h
    unfold djb2
    simp only [hinit]
    exact h

/-- Claim C17 at the string `"hi"`: `5381 * 33^2 + 104 * 33 + 105 = 5863446`. -/
theorem djb2_closed_form_witness :
    djb2 64 true (some ([0x68, 0x69] ++ 0 :: [])) = Outcome.returned
      ((5381 * 33 ^ ([0x68, 0x69] : List Byte).length
        + ∑ i ∈ Finset.range ([0x68, 0x69] : List Byte).length,
            (([0x68, 0x69] : List Byte).getD i 0).val
              * 33 ^ (([0x68, 0x69] : List Byte).length - 1 - i)) % 2 ^ 64) ∧
    djb2 64 true (some (0 :: [])) = Outcome.returned 5381 :=
  djb2_closed_form 64 true (by norm_num) [0x68, 0x69] []
    (by intro b hb; fin_cases hb <;> decide)

/-- Claim C18. Sign extension of high bytes in `djb2`: where plain `char` is
signed, a byte of value `v` from 128 to 255 is read into `c` as `v - 256`, so
the step computes `(h * 33 + v - 256) mod 2^64` and not `(h * 33 + v) mod 2^64`;
`djb2` of the one-byte string `[0x80]` is `5381 * 33 - 128 = 177445`, not
`177701`. On strings whose bytes are all from 1 to 127 the result is the same
for signed and for unsigned `char`. -/
theorem djb2_sign_extension (W : Nat) (h : Nat) (v : Byte) (hv : 128 ≤ v.val)
    (s t : List Byte) (hs : ∀ b ∈ s, 1 ≤ b.val ∧ b.val ≤ 127) :
    charToInt true v = (v.val : Int) - 256 ∧
    ((djb2_step 64 true h v : Nat) : Int)
      = ((h : Int) * 33 + (v.val : Int) - 256) % (2 : Int) ^ 64 ∧
    djb2_step 64 true h v ≠ (h * 33 + v.val) % 2 ^ 64 ∧
    djb2 64 true (some [0x80, 0]) = Outcome.returned 177445 ∧
    5381 * 33 - 128 = 177445 ∧
    djb2 64 true (some [0x80, 0]) ≠ Outcome.returned 177701 ∧
    djb2 W true (some (s ++ 0 :: t)) = djb2 W false (some (s ++ 0 :: t)) := by
  have hchar : charToInt true v = (v.val : Int) - 256 := by
    unfold charToInt
    simp [hv]
  have hstep : ((djb2_step 64 true h v : Nat) : Int)
      = ((h : Int) * 33 + (v.val : Int) - 256) % (2 : Int) ^ 64 := by
    rw [djb2_step_int, hchar]
    congr 1
    ring
  have hnz : ∀ b ∈ s, b ≠ 0 := by
    intro b hb h0
    have := (hs b hb).1
    rw [h0] at this
    simp at this
  have hlow : ∀ b ∈ s, b.val < 128 := fun b hb => by
    have := (hs b hb).2
    omega
  refine ⟨hchar, hstep, ?_, by decide, by decide, by decide, ?_⟩
  · intro heq
    have hcast : ((djb2_step 64 true h v : Nat) : Int)
        = ((h : Int) * 33 + (v.val : Int)) % (2 : Int) ^ 64 := by
      rw [heq]
      push_cast
      rfl
    rw [hstep] at hcast
    norm_num at hcast
    omega
  · unfold djb2
    simp only
    rw [djb2_loop_terminated W true t s _ hnz, djb2_loop_terminated W false t s _ hnz,
      djb2_fold_eq W true s _ (Or.inr hlow), djb2_fold_eq W false s _ (Or.inl rfl)]

/-- Claim C18 at the byte `0xe9`, the accumulator `5381` and the string `"hi"`. -/
theorem djb2_sign_extension_witness :
    charToInt true 0xe9 = (((0xe9 : Byte).val : Nat) : Int) - 256 ∧
    djb2_step 64 true 5381 0xe9 ≠ (5381 * 33 + (0xe9 : Byte).val) % 2 ^ 64 ∧
    djb2 64 true (some ([0x68, 0x69] ++ 0 :: [])) = djb2 64 false (some ([0x68, 0x69] ++ 0 :: [])) :=
  let r := djb2_sign_extension 64 5381 0xe9 (by decide) [0x68, 0x69] []
    (by intro b hb; fin_cases hb <;> decide)
  ⟨r.1, r.2.2.1, r.2.2.2.2.2.2⟩

end Hash
